import Mathlib

/-!
Shallow embedding of `src/eeg_preprocessing/eeg_pipeline.py`, a linear EEG
preprocessing demo script.  The script is nine sequential statements: two
`print` calls and seven calls into the external MNE library (dataset load,
band-pass filter, average re-reference, event extraction, epoch construction,
evoked averaging, plotting), each with fixed hard-coded arguments.

The script body itself is embedded directly from the source (the trace layer
and the state machine below).  The semantics of the library operations is not
part of the repository; where a claim needs it, the operation is modelled from
the specification's own description of it, and each such definition carries a
doc comment saying so.  Sample values are rationals (the embedding of the
library's floating-point arrays); machine floats appear only in the NaN-aware
value type `Val` used for the numerical claim about averaging.
-/

namespace EEGPipeline

/-- A pending (deferred) re-referencing projection attached to a recording.
Modelled from the spec: re-referencing is "applied as a deferred/projected
correction"; the only projection the script ever creates is the average
reference. -/
inductive Proj where
  | averageRef
deriving DecidableEq, Repr

/-- The spec's Recording: "a multichannel time series (channel labels, sample
rate, sample matrix)" together with the designated stimulus channel
(`'STI 014'`) carried as an integer-valued series, and the list of pending
projections.  Channel labels beyond the stimulus channel play no role in any
claim and are omitted; `data` holds one sample list per (data) channel. -/
structure Recording where
  sfreq : ℚ
  data : List (List ℚ)
  stim : List ℤ
  projs : List Proj
deriving DecidableEq, Repr

/-- Well-formedness of a recording: every data channel has exactly one sample
per sample of the stimulus channel (all channels share the time axis). -/
def Recording.WF (r : Recording) : Prop :=
  ∀ ch ∈ r.data, ch.length = r.stim.length

instance (r : Recording) : Decidable r.WF := by
  unfold Recording.WF; infer_instance

/-- Auxiliary scan for event extraction: walks the stimulus series carrying
the previous sample's value and the absolute index of the current sample,
emitting an event `(index, value)` at every onset (previous value `0`,
current value non-zero). -/
def findEventsAux : ℕ → ℤ → List ℤ → List (ℕ × ℤ)
  | _, _, [] => []
  | i, prev, v :: rest =>
    if prev = 0 ∧ v ≠ 0 then (i, v) :: findEventsAux (i + 1) v rest
    else findEventsAux (i + 1) v rest

/-- Modelled from the spec: `mne.find_events(raw, stim_channel='STI 014')`,
whose implementation lives in the external library.  The spec describes the
event table as the "ordered sequence of (sample index, code) pairs derived
from one designated channel of the Recording", the markers being onsets of
non-zero values on the stimulus channel.  The first sample cannot be an onset
(there is no previous sample to compare with). -/
def find_events (stim : List ℤ) : List (ℕ × ℤ) :=
  match stim with
  | [] => []
  | v :: rest => findEventsAux 1 v rest

/-- The script's hard-coded label-to-code mapping
`{'auditory/left': 1, 'auditory/right': 2, 'visual/left': 3, 'visual/right': 4}`. -/
def event_id : List (String × ℤ) :=
  [("auditory/left", 1), ("auditory/right", 2),
   ("visual/left", 3), ("visual/right", 4)]

/-- `True` exactly when the stimulus series contains an onset (a sample equal
to `0` immediately followed by a non-zero sample), i.e. when event extraction
has at least one marker to report. -/
def hasOnset : List ℤ → Bool
  | [] => false
  | [_] => false
  | a :: b :: rest => (decide (a = 0) && decide (b ≠ 0)) || hasOnset (b :: rest)

/-- The script's epoch window start, `tmin=-0.2` seconds. -/
def tmin : ℚ := -1/5

/-- The script's epoch window end, `tmax=0.5` seconds. -/
def tmax : ℚ := 1/2

/-- Rounding to the nearest integer (half up), used to convert the window
bounds in seconds into sample offsets. -/
def roundQ (q : ℚ) : ℤ := ⌊q + 1/2⌋

/-- Arithmetic mean of a list of rationals (`0` for the empty list, since
`x / 0 = 0` in `ℚ`). -/
def mean (l : List ℚ) : ℚ := l.sum / (l.length : ℚ)

/-- Baseline correction with `baseline=(None, 0)`: subtract from every sample
of the window the mean of its first `nb` samples (the samples at times
`tmin ≤ t ≤ 0`).  Modelled from the spec: epochs are "baseline-corrected
using a pre-event interval". -/
def baselineCorrect (w : List ℚ) (nb : ℕ) : List ℚ :=
  let m := mean (w.take nb)
  w.map (fun x => x - m)

/-- One epoch: a label, the count `n` of samples in its window, and the
windowed (baseline-corrected) samples, one row per channel. -/
structure Epoch where
  label : String
  n : ℕ
  data : List (List ℚ)
deriving DecidableEq, Repr

/-- Modelled from the spec: the slicing performed by
`mne.Epochs(raw, events, event_id, tmin=-0.2, tmax=0.5, baseline=(None, 0))`
for a single event, whose implementation lives in the external library.  The
spec describes an epoch as "a fixed-length window of the Recording's samples
around that event's sample index, tagged with its label; baseline-corrected
using a pre-event interval".  An event whose code is not in the label mapping,
or whose window does not fit inside the recording, yields no epoch. -/
def makeEpoch (r : Recording) (ev : ℕ × ℤ) : Option Epoch :=
  match event_id.find? (fun p => p.2 = ev.2) with
  | none => none
  | some p =>
    let a : ℤ := (ev.1 : ℤ) + roundQ (tmin * r.sfreq)
    let b : ℤ := (ev.1 : ℤ) + roundQ (tmax * r.sfreq)
    let n : ℕ := (b - a + 1).toNat
    let nb : ℕ := (1 - roundQ (tmin * r.sfreq)).toNat
    if 0 ≤ a ∧ b < (r.stim.length : ℤ) then
      some { label := p.1, n := n,
             data := r.data.map (fun ch => baselineCorrect ((ch.drop a.toNat).take n) nb) }
    else none

/-- Epoch construction over the whole event table, in event order, grouped
later by label.  Mirrors `mne.Epochs(...)` restricted to what the claims
need. -/
def mkEpochs (r : Recording) (evs : List (ℕ × ℤ)) : List Epoch :=
  evs.filterMap (makeEpoch r)

/-- The group of epochs tagged with one label (the script's
`epochs['auditory/left']` selection). -/
def epochGroup (eps : List Epoch) (lab : String) : List Epoch :=
  eps.filter (fun e => e.label = lab)

/-- The time spanned by an epoch, in seconds: its `n` samples at rate
`sfreq` cover `(n - 1) / sfreq` seconds from first to last sample. -/
def Epoch.span (e : Epoch) (sfreq : ℚ) : ℚ := ((e.n : ℚ) - 1) / sfreq

/-- Entry of a channels-by-samples matrix, with `0` outside the matrix. -/
def entry (m : List (List ℚ)) (c t : ℕ) : ℚ := (m.getD c []).getD t 0

/-- `Dims m nC nT`: the matrix has `nC` rows, each of length `nT`. -/
def Dims (m : List (List ℚ)) (nC nT : ℕ) : Prop :=
  m.length = nC ∧ ∀ row ∈ m, row.length = nT

instance (m : List (List ℚ)) (nC nT : ℕ) : Decidable (Dims m nC nT) := by
  unfold Dims; infer_instance

/-- Pointwise sum of two channels-by-samples matrices (truncating to the
common shape, as the library's array addition requires equal shapes). -/
def addMat (a b : List (List ℚ)) : List (List ℚ) :=
  List.zipWith (fun ra rb => List.zipWith (fun x y => x + y) ra rb) a b

/-- Modelled from the spec: `epochs['auditory/left'].average()`, whose
implementation lives in the external library.  The spec defines the evoked
average as "the sample-wise mean across all epochs sharing one label,
producing a single time series per channel"; it is computed here by summing
the epochs' sample matrices and dividing by their number, and is undefined
(`none`) on an empty group. -/
def average (eps : List Epoch) : Option (List (List ℚ)) :=
  match eps with
  | [] => none
  | e :: rest =>
    some ((rest.foldl (fun acc e2 => addMat acc e2.data) e.data).map
      (fun row => row.map (fun x => x / ((rest.length + 1 : ℕ) : ℚ))))

/-- A floating-point sample value for the numerical claim about averaging:
either the special value NaN or a finite value (embedded as a rational). -/
inductive Val where
  | nan
  | fin (q : ℚ)
deriving DecidableEq, Repr

/-- Addition on samples; NaN is absorbing, as in IEEE floating point. -/
def Val.add : Val → Val → Val
  | fin a, fin b => fin (a + b)
  | _, _ => nan

/-- Division of a sample by a count; division by zero and NaN inputs give
NaN, as in IEEE floating point (`0/0`). -/
def Val.divN : Val → ℕ → Val
  | nan, _ => nan
  | fin a, k => if k = 0 then nan else fin (a / (k : ℚ))

/-- Pointwise sum of two NaN-aware sample matrices. -/
def addMatV (a b : List (List Val)) : List (List Val) :=
  List.zipWith (fun ra rb => List.zipWith Val.add ra rb) a b

/-- Modelled from the spec: the library's floating-point evoked averaging
(`.average()`), on NaN-aware sample matrices — sum the epochs' matrices and
divide every entry by the number of epochs.  On an empty group the division
is `0/0`, i.e. every entry would be NaN; the claim only concerns non-empty
groups. -/
def averageV (eps : List (List (List Val))) : List (List Val) :=
  match eps with
  | [] => []
  | e :: rest =>
    (rest.foldl addMatV e).map (fun row => row.map (fun v => v.divN (rest.length + 1)))

/-- An epoch group keyed by label, for the NaN claim: the matrices of the
epochs tagged with `lab`. -/
def vGroup (eps : List (String × List (List Val))) (lab : String) : List (List (List Val)) :=
  (eps.filter (fun p => p.1 = lab)).map (fun p => p.2)

/-- No entry of the matrix is NaN. -/
def NoNaN (m : List (List Val)) : Prop :=
  ∀ row ∈ m, ∀ v ∈ row, v ≠ Val.nan

instance (m : List (List Val)) : Decidable (NoNaN m) := by
  unfold NoNaN; infer_instance

/-- Shape of a NaN-aware matrix: `nC` rows of length `nT`. -/
def DimsV (m : List (List Val)) (nC nT : ℕ) : Prop :=
  m.length = nC ∧ ∀ row ∈ m, row.length = nT

instance (m : List (List Val)) (nC nT : ℕ) : Decidable (DimsV m nC nT) := by
  unfold DimsV; infer_instance

/-- The common-average subtraction that `projection=False` would perform at
once: at every time index, subtract the mean across channels from every
channel.  Modelled from the spec: the "immediate subtraction" alternative
that the script does *not* take. -/
def subtractCommonAverage (data : List (List ℚ)) : List (List ℚ) :=
  data.map (fun ch =>
    ch.mapIdx (fun t x =>
      x - (data.map (fun ch2 => ch2.getD t 0)).sum / (data.length : ℚ)))

/-- Modelled from the spec: `raw.set_eeg_reference('average', projection=True)`,
whose implementation lives in the external library.  With `projection=True`
the average reference is "applied as a deferred/projected correction": a
projection is attached for later application and the sample matrix is left
untouched.  With `projection=False` the channel-mean subtraction would be
applied to the samples immediately. -/
def set_eeg_reference (_method : String) (projection : Bool) (r : Recording) : Recording :=
  if projection then { r with projs := r.projs ++ [Proj.averageRef] }
  else { r with data := subtractCommonAverage r.data }

/-- Modelled from the spec: `raw.filter(1., 40., fir_design='firwin')`, the
fixed 1–40 Hz band-pass owned entirely by the external library ("filter
implementation" is explicitly out of scope).  It is modelled as a fixed
deterministic per-channel linear transformation — removal of each channel's
temporal mean, the simplest band-limiting effect — acting on the sample
matrix only.  No claim depends on the filter's numerical kernel. -/
def filterF (r : Recording) : Recording :=
  { r with data := r.data.map (fun ch => ch.map (fun x => x - mean ch)) }

/-! ### The script body as a trace of library calls

Each of the nine statements of `eeg_pipeline.py` becomes one `Call` with the
source's hard-coded arguments.  A `World` records, for each fallible library
call, whether the external library succeeds (`none`) or raises (`some msg`);
the script has no handling of its own, so the runner stops at the first
failure and returns that error. -/

/-- One statement of the script: a library call or a `print`, with the fixed
arguments appearing in the source. -/
inductive Call where
  | load (path : String)
  | filterCall (lfreq hfreq : ℚ) (design : String)
  | setRef (method : String) (projection : Bool)
  | findEv (stimChannel : String)
  | epochsCall (tmin tmax : ℚ)
  | avg (label : String)
  | plot
  | printMsg (msg : String)
deriving DecidableEq, Repr

/-- The outcome the external library would give to each fallible call of the
script: `none` for success, `some msg` for a raised error (missing dataset,
malformed file, absent events, empty epoch group, ...). -/
structure World where
  loadR : Option String
  filterR : Option String
  rerefR : Option String
  findR : Option String
  epochR : Option String
  avgR : Option String
  plotR : Option String
deriving DecidableEq, Repr

/-- Every library call succeeds. -/
def World.allOk (w : World) : Prop :=
  w.loadR = none ∧ w.filterR = none ∧ w.rerefR = none ∧ w.findR = none ∧
  w.epochR = none ∧ w.avgR = none ∧ w.plotR = none

instance (w : World) : Decidable w.allOk := by
  unfold World.allOk; infer_instance

/-- The nine statements of the script body, in source order, each paired with
its outcome in world `w` (`print` never fails).  `dp` is the dataset
directory returned by `mne.datasets.sample.data_path()`. -/
def scriptSteps (dp : String) (w : World) : List (Call × Option String) :=
  [(Call.printMsg "Loading sample EEG dataset...", none),
   (Call.load (dp ++ "/MEG/sample/sample_audvis_raw.fif"), w.loadR),
   (Call.filterCall 1 40 "firwin", w.filterR),
   (Call.setRef "average" true, w.rerefR),
   (Call.findEv "STI 014", w.findR),
   (Call.epochsCall tmin tmax, w.epochR),
   (Call.avg "auditory/left", w.avgR),
   (Call.plot, w.plotR),
   (Call.printMsg "EEG preprocessing demo finished successfully!", none)]

/-- Straight-line execution with no handling: run the statements in order;
at the first library failure, stop and propagate that error (the process
terminates with the uncaught exception); otherwise continue.  Returns the
trace of statements actually executed and the final outcome. -/
def runCalls : List (Call × Option String) → List Call × Except String Unit
  | [] => ([], Except.ok ())
  | (c, some e) :: _ => ([c], Except.error e)
  | (c, none) :: rest =>
    let r := runCalls rest
    (c :: r.1, r.2)

/-- The whole script, as the execution of its nine statements. -/
def runScript (dp : String) (w : World) : List Call × Except String Unit :=
  runCalls (scriptSteps dp w)

/-- Recognizer for filtering calls in a trace. -/
def isFilterCall : Call → Bool
  | Call.filterCall _ _ _ => true
  | _ => false

/-! ### The script body as a state machine

The script's variables (`raw`, `events`, `epochs`, `evoked`) together with
the console output and the plot window form the state; each statement is a
state transformer, and the whole run is a deterministic step relation used
for the read-only and determinism claims. -/

/-- The script's in-memory state: its variables plus the observable console
output and whether the plot was rendered. -/
structure SState where
  raw : Recording
  events : List (ℕ × ℤ)
  epochs : List Epoch
  evoked : Option (List (List ℚ))
  printed : List String
  plotted : Bool
deriving DecidableEq, Repr

/-- `print(msg)`: append one line to the console output. -/
def printStep (msg : String) (s : SState) : SState :=
  { s with printed := s.printed ++ [msg] }

/-- `raw = mne.io.read_raw_fif(raw_file, preload=True)`: bind the loaded
recording `d` (the in-memory image of the dataset file) to `raw`. -/
def loadStep (d : Recording) (s : SState) : SState :=
  { s with raw := d }

/-- `raw.filter(1., 40., fir_design='firwin')`: mutate the one recording in
place. -/
def filterStep (s : SState) : SState :=
  { s with raw := filterF s.raw }

/-- `raw.set_eeg_reference('average', projection=True)`: mutate the one
recording in place. -/
def rerefStep (s : SState) : SState :=
  { s with raw := set_eeg_reference "average" true s.raw }

/-- `events = mne.find_events(raw, stim_channel='STI 014')`. -/
def eventsStep (s : SState) : SState :=
  { s with events := find_events s.raw.stim }

/-- `epochs = mne.Epochs(raw, events, event_id, tmin=-0.2, tmax=0.5, ...)`. -/
def epochStep (s : SState) : SState :=
  { s with epochs := mkEpochs s.raw s.events }

/-- `evoked = epochs['auditory/left'].average()`. -/
def averageStep (s : SState) : SState :=
  { s with evoked := average (epochGroup s.epochs "auditory/left") }

/-- `evoked.plot()`: render the plot window. -/
def plotStep (s : SState) : SState :=
  { s with plotted := true }

/-- The four statements executed after event extraction, in source order. -/
def postEventSteps : List (SState → SState) :=
  [epochStep, averageStep, plotStep, printStep "EEG preprocessing demo finished successfully!"]

/-- The state before the script runs: no output, no plot, variables unbound
(the placeholder recording stands for the not-yet-assigned `raw`). -/
def initState : SState :=
  { raw := { sfreq := 0, data := [], stim := [], projs := [] },
    events := [], epochs := [], evoked := none, printed := [], plotted := false }

/-- The program counter of the script: which statements have executed. -/
inductive Phase where
  | atStart
  | banner
  | loaded
  | filtered
  | rereferenced
  | eventsFound
  | epoched
  | averaged
  | plotted
  | finished
deriving DecidableEq, Repr

/-- One execution step of the script on dataset `d`: each of the nine
statements, in source order, advances the program counter and applies its
state transformer.  The relation has no other transitions: the script has no
branching, no retry, and no input beyond the dataset. -/
inductive SStep (d : Recording) : Phase × SState → Phase × SState → Prop where
  | banner (s) : SStep d (Phase.atStart, s) (Phase.banner, printStep "Loading sample EEG dataset..." s)
  | load (s) : SStep d (Phase.banner, s) (Phase.loaded, loadStep d s)
  | filt (s) : SStep d (Phase.loaded, s) (Phase.filtered, filterStep s)
  | reref (s) : SStep d (Phase.filtered, s) (Phase.rereferenced, rerefStep s)
  | findEv (s) : SStep d (Phase.rereferenced, s) (Phase.eventsFound, eventsStep s)
  | epoch (s) : SStep d (Phase.eventsFound, s) (Phase.epoched, epochStep s)
  | avg (s) : SStep d (Phase.epoched, s) (Phase.averaged, averageStep s)
  | plotC (s) : SStep d (Phase.averaged, s) (Phase.plotted, plotStep s)
  | finish (s) : SStep d (Phase.plotted, s) (Phase.finished, printStep "EEG preprocessing demo finished successfully!" s)

/-- The final state of a complete run on dataset `d`: the nine statements
composed in source order. -/
def machineRun (d : Recording) : SState :=
  printStep "EEG preprocessing demo finished successfully!"
    (plotStep (averageStep (epochStep (eventsStep (rerefStep (filterStep
      (loadStep d (printStep "Loading sample EEG dataset..." initState))))))))

/-- A small synthetic recording used to instantiate the theorems: 10 Hz
sampling, one data channel, and a stimulus channel with one auditory/left
marker (code 1) at sample 5. -/
def demoRec : Recording :=
  { sfreq := 10,
    data := [[0, 1, 2, 3, 4, 5, 6, 7, 8, 9, 10, 11]],
    stim := [0, 0, 0, 0, 0, 1, 1, 0, 0, 0, 0, 0],
    projs := [] }

/-!
## Theorems

Helper lemmas first, then one theorem per claim (with a witness when the
theorem has hypotheses).
-/

/-- Every event the scan emits takes its code from the scanned series, and
the code is non-zero. -/
lemma findEventsAux_codes (l : List ℤ) :
    ∀ (i : ℕ) (prev : ℤ) (p : ℕ × ℤ), p ∈ findEventsAux i prev l → p.2 ∈ l ∧ p.2 ≠ 0 := by
  induction l with
  | nil => intro i prev p hp; simp [findEventsAux] at hp
  | cons v rest ih =>
    intro i prev p hp
    unfold findEventsAux at hp
    by_cases h : prev = 0 ∧ v ≠ 0
    · rw [if_pos h] at hp
      rcases List.mem_cons.mp hp with h1 | h1
      · subst h1; exact ⟨List.mem_cons_self _ _, h.2⟩
      · rcases ih _ _ _ h1 with ⟨hm, hz⟩
        exact ⟨List.mem_cons_of_mem _ hm, hz⟩
    · rw [if_neg h] at hp
      rcases ih _ _ _ hp with ⟨hm, hz⟩
      exact ⟨List.mem_cons_of_mem _ hm, hz⟩

/-- If the series seen from `prev` contains an onset, the scan emits at
least one event. -/
lemma findEventsAux_ne_nil (l : List ℤ) :
    ∀ (i : ℕ) (prev : ℤ), hasOnset (prev :: l) = true → findEventsAux i prev l ≠ [] := by
  induction l with
  | nil => intro i prev h; simp [hasOnset] at h
  | cons v rest ih =>
    intro i prev h
    unfold findEventsAux
    by_cases hc : prev = 0 ∧ v ≠ 0
    · rw [if_pos hc]; exact List.cons_ne_nil _ _
    · rw [if_neg hc]
      apply ih
      unfold hasOnset at h
      rcases Bool.or_eq_true_iff.mp h with h1 | h1
      · exfalso
        rcases Bool.and_eq_true_iff.mp h1 with ⟨h2, h3⟩
        exact hc ⟨of_decide_eq_true h2, of_decide_eq_true h3⟩
      · exact h1

/-- C1: run on the `'STI 014'` stimulus series of a recording whose marker
values lie in `{0, 1, 2, 3, 4}` (as the spec asserts of the sample dataset)
and which contains at least one onset, event extraction yields a non-empty
event table all of whose codes lie in `{1, 2, 3, 4}`. -/
theorem find_events_nonempty_codes (stim : List ℤ)
    (hvals : ∀ v ∈ stim, v = 0 ∨ (1 ≤ v ∧ v ≤ 4))
    (honset : hasOnset stim = true) :
    find_events stim ≠ [] ∧ ∀ p ∈ find_events stim, p.2 ∈ ([1, 2, 3, 4] : List ℤ) := by
  match stim, honset with
  | v :: rest, honset =>
    constructor
    · exact findEventsAux_ne_nil rest 1 v honset
    · intro p hp
      rcases findEventsAux_codes rest 1 v p hp with ⟨hm, hz⟩
      rcases hvals p.2 (List.mem_cons_of_mem _ hm) with h0 | ⟨h1, h4⟩
      · exact absurd h0 hz
      · simp only [List.mem_cons, List.not_mem_nil, or_false]
        omega

/-- Witness for C1 at the synthetic recording's stimulus channel. -/
theorem find_events_nonempty_codes_witness :
    (∀ v ∈ demoRec.stim, v = 0 ∨ (1 ≤ v ∧ v ≤ 4)) ∧ hasOnset demoRec.stim = true ∧
    (find_events demoRec.stim ≠ [] ∧
      ∀ p ∈ find_events demoRec.stim, p.2 ∈ ([1, 2, 3, 4] : List ℤ)) :=
  ⟨by decide, by decide, find_events_nonempty_codes demoRec.stim (by decide) (by decide)⟩

/-- Rounding an integer-valued rational returns that integer. -/
lemma roundQ_intCast (z : ℤ) : roundQ ((z : ℚ)) = z := by
  unfold roundQ
  rw [Int.floor_int_add]
  norm_num

/-- At a sampling rate of `10 * k` Hz, `tmin = -0.2 s` is exactly `-2k`
samples. -/
lemma roundQ_tmin_mul (k : ℕ) : roundQ (tmin * ((10 * k : ℕ) : ℚ)) = -(2 * (k : ℤ)) := by
  have h : tmin * ((10 * k : ℕ) : ℚ) = ((-(2 * (k : ℤ)) : ℤ) : ℚ) := by
    unfold tmin; push_cast; ring
  rw [h, roundQ_intCast]

/-- At a sampling rate of `10 * k` Hz, `tmax = 0.5 s` is exactly `5k`
samples. -/
lemma roundQ_tmax_mul (k : ℕ) : roundQ (tmax * ((10 * k : ℕ) : ℚ)) = 5 * (k : ℤ) := by
  have h : tmax * ((10 * k : ℕ) : ℚ) = ((5 * (k : ℤ) : ℤ) : ℚ) := by
    unfold tmax; push_cast; ring
  rw [h, roundQ_intCast]

/-- Characterization of a successful single-event epoch construction: the
event's code is in the label mapping, the window fits the recording, and the
epoch is the windowed, baseline-corrected slice. -/
lemma makeEpoch_eq_some {r : Recording} {ev : ℕ × ℤ} {e : Epoch}
    (h : makeEpoch r ev = some e) :
    ∃ p, event_id.find? (fun q => q.2 = ev.2) = some p ∧
      0 ≤ (ev.1 : ℤ) + roundQ (tmin * r.sfreq) ∧
      (ev.1 : ℤ) + roundQ (tmax * r.sfreq) < (r.stim.length : ℤ) ∧
      e.label = p.1 ∧
      e.n = ((ev.1 : ℤ) + roundQ (tmax * r.sfreq) -
              ((ev.1 : ℤ) + roundQ (tmin * r.sfreq)) + 1).toNat ∧
      e.data = r.data.map (fun ch =>
        baselineCorrect
          ((ch.drop ((ev.1 : ℤ) + roundQ (tmin * r.sfreq)).toNat).take e.n)
          ((1 - roundQ (tmin * r.sfreq)).toNat)) := by
  rcases hf : event_id.find? (fun q => q.2 = ev.2) with _ | p
  · unfold makeEpoch at h; rw [hf] at h; exact absurd h (by simp)
  · unfold makeEpoch at h; rw [hf] at h
    dsimp only at h
    by_cases hcond : 0 ≤ (ev.1 : ℤ) + roundQ (tmin * r.sfreq) ∧
        (ev.1 : ℤ) + roundQ (tmax * r.sfreq) < (r.stim.length : ℤ)
    · rw [if_pos hcond] at h
      injection h with h
      subst h
      exact ⟨p, hf, hcond.1, hcond.2, rfl, rfl, rfl⟩
    · rw [if_neg hcond] at h; exact absurd h (by simp)

/-- Every epoch the construction produces, at a sampling rate of `10 * k` Hz
(`k ≠ 0`) and on a well-formed recording, spans exactly `tmax - tmin`
seconds, and carries a full window of samples on every channel. -/
lemma mem_mkEpochs_span {r : Recording} {k : ℕ} {e : Epoch} {evs : List (ℕ × ℤ)}
    (hwf : r.WF) (hk : r.sfreq = ((10 * k : ℕ) : ℚ)) (hk0 : k ≠ 0)
    (he : e ∈ mkEpochs r evs) :
    e.span r.sfreq = tmax - tmin ∧ ∀ row ∈ e.data, row.length = e.n := by
  obtain ⟨ev, _, hme⟩ := List.mem_filterMap.mp he
  obtain ⟨p, _, ha, hb, _, hn, hdata⟩ := makeEpoch_eq_some hme
  rw [hk] at ha hb hn hdata
  rw [roundQ_tmin_mul] at ha hn hdata
  rw [roundQ_tmax_mul] at hb hn
  have hn' : e.n = 7 * k + 1 := by omega
  constructor
  · unfold Epoch.span
    rw [hn', hk]
    have hkq : (k : ℚ) ≠ 0 := Nat.cast_ne_zero.mpr hk0
    unfold tmax tmin
    push_cast
    field_simp
    ring
  · intro row hrow
    rw [hdata] at hrow
    obtain ⟨ch, hch, rfl⟩ := List.mem_map.mp hrow
    have hchlen : ch.length = r.stim.length := hwf ch hch
    unfold baselineCorrect
    simp only [List.length_map, List.length_take, List.length_drop]
    omega

/-- A label's pair is found by the code lookup the epoch construction
performs (the four codes of the mapping are distinct). -/
lemma event_id_find_eq {lab : String} {code : ℤ} (hlab : (lab, code) ∈ event_id) :
    event_id.find? (fun q => q.2 = code) = some (lab, code) := by
  simp only [event_id, List.mem_cons, List.not_mem_nil, or_false, Prod.mk.injEq] at hlab
  rcases hlab with ⟨rfl, rfl⟩ | ⟨rfl, rfl⟩ | ⟨rfl, rfl⟩ | ⟨rfl, rfl⟩ <;> rfl

/-- C2: for every label of the mapping with at least one matching event,
epoch construction with the fixed window `tmin = -0.2 s`, `tmax = 0.5 s` on a
well-formed recording sampled at `10k` Hz (so the window ends fall on exact
samples), with every event's window inside the recording, yields a non-empty
group of epochs each of which spans exactly `tmax - tmin` seconds. -/
theorem epoch_group_spans (r : Recording) (k : ℕ) (lab : String) (code : ℤ)
    (hwf : r.WF) (hk : r.sfreq = ((10 * k : ℕ) : ℚ)) (hk0 : k ≠ 0)
    (hlab : (lab, code) ∈ event_id)
    (hev : ∃ p ∈ find_events r.stim, p.2 = code)
    (hfit : ∀ p ∈ find_events r.stim, 2 * k ≤ p.1 ∧ p.1 + 5 * k < r.stim.length) :
    epochGroup (mkEpochs r (find_events r.stim)) lab ≠ [] ∧
    ∀ e ∈ epochGroup (mkEpochs r (find_events r.stim)) lab,
      e.span r.sfreq = tmax - tmin ∧ ∀ row ∈ e.data, row.length = e.n := by
  constructor
  · obtain ⟨p, hpmem, hpcode⟩ := hev
    obtain ⟨hfit1, hfit2⟩ := hfit p hpmem
    have hfind : event_id.find? (fun q => q.2 = p.2) = some (lab, code) := by
      rw [hpcode]; exact event_id_find_eq hlab
    have hcond : 0 ≤ (p.1 : ℤ) + roundQ (tmin * r.sfreq) ∧
        (p.1 : ℤ) + roundQ (tmax * r.sfreq) < (r.stim.length : ℤ) := by
      rw [hk, roundQ_tmin_mul, roundQ_tmax_mul]
      constructor
      · omega
      · omega
    have hex : ∃ e : Epoch, makeEpoch r p = some e ∧ e.label = lab := by
      unfold makeEpoch
      rw [hfind]
      dsimp only
      rw [if_pos hcond]
      exact ⟨_, rfl, rfl⟩
    obtain ⟨e, hme, hlabeq⟩ := hex
    exact List.ne_nil_of_mem (List.mem_filter.mpr
      ⟨List.mem_filterMap.mpr ⟨p, hpmem, hme⟩, by simp [hlabeq]⟩)
  · intro e he
    exact mem_mkEpochs_span hwf hk hk0 (List.mem_filter.mp he).1

/-- Witness for C2 at the synthetic 10 Hz recording, label `auditory/left`. -/
theorem epoch_group_spans_witness :
    demoRec.WF ∧ demoRec.sfreq = ((10 * 1 : ℕ) : ℚ) ∧
    ("auditory/left", (1 : ℤ)) ∈ event_id ∧
    (∃ p ∈ find_events demoRec.stim, p.2 = (1 : ℤ)) ∧
    (∀ p ∈ find_events demoRec.stim, 2 * 1 ≤ p.1 ∧ p.1 + 5 * 1 < demoRec.stim.length) ∧
    (epochGroup (mkEpochs demoRec (find_events demoRec.stim)) "auditory/left" ≠ [] ∧
      ∀ e ∈ epochGroup (mkEpochs demoRec (find_events demoRec.stim)) "auditory/left",
        e.span demoRec.sfreq = tmax - tmin ∧ ∀ row ∈ e.data, row.length = e.n) :=
  ⟨by decide, by decide, by decide, by decide, by decide,
    epoch_group_spans demoRec 1 "auditory/left" 1 (by decide) (by decide) (by decide)
      (by decide) (by decide) (by decide)⟩

/-- Entry of a pointwise row sum. -/
lemma getD_zipWith_add (ra : List ℚ) :
    ∀ (rb : List ℚ) (t : ℕ), t < ra.length → t < rb.length →
      (List.zipWith (fun x y => x + y) ra rb).getD t 0 = ra.getD t 0 + rb.getD t 0 := by
  induction ra with
  | nil => intro rb t h _; simp at h
  | cons x xs ih =>
    intro rb t h1 h2
    cases rb with
    | nil => simp at h2
    | cons y ys =>
      cases t with
      | zero => simp
      | succ u =>
        simp only [List.zipWith_cons_cons, List.getD_cons_succ]
        exact ih ys u (by simpa using h1) (by simpa using h2)

/-- Every element of a zipped list comes from one element of each input. -/
lemma mem_zipWith {α β γ : Type} (f : α → β → γ) :
    ∀ (a : List α) (b : List β) (x : γ), x ∈ List.zipWith f a b →
      ∃ u ∈ a, ∃ v ∈ b, x = f u v := by
  intro a
  induction a with
  | nil => intro b x hx; simp at hx
  | cons u us ih =>
    intro b x hx
    cases b with
    | nil => simp at hx
    | cons v vs =>
      rcases List.mem_cons.mp hx with h | h
      · exact ⟨u, List.mem_cons_self _ _, v, List.mem_cons_self _ _, h⟩
      · obtain ⟨u2, hu2, v2, hv2, rfl⟩ := ih vs x h
        exact ⟨u2, List.mem_cons_of_mem _ hu2, v2, List.mem_cons_of_mem _ hv2, rfl⟩

/-- Pointwise matrix sum preserves the shape. -/
lemma addMat_dims {a b : List (List ℚ)} {nC nT : ℕ}
    (ha : Dims a nC nT) (hb : Dims b nC nT) : Dims (addMat a b) nC nT := by
  constructor
  · rw [addMat, List.length_zipWith, ha.1, hb.1, Nat.min_self]
  · intro row hrow
    obtain ⟨ra, hra, rb, hrb, rfl⟩ := mem_zipWith _ a b row hrow
    rw [List.length_zipWith, ha.2 ra hra, hb.2 rb hrb, Nat.min_self]

/-- Entry of a pointwise matrix sum is the sum of the entries. -/
lemma entry_addMat (a : List (List ℚ)) :
    ∀ (b : List (List ℚ)) (c t : ℕ), c < a.length → c < b.length →
      (∀ row ∈ a, t < row.length) → (∀ row ∈ b, t < row.length) →
      entry (addMat a b) c t = entry a c t + entry b c t := by
  induction a with
  | nil => intro b c t hc _ _ _; simp at hc
  | cons ra as ih =>
    intro b c t hc1 hc2 hta htb
    cases b with
    | nil => simp at hc2
    | cons rb bs =>
      cases c with
      | zero =>
        show (List.zipWith _ ra rb).getD t 0 = ra.getD t 0 + rb.getD t 0
        exact getD_zipWith_add ra rb t (hta ra (List.mem_cons_self _ _))
          (htb rb (List.mem_cons_self _ _))
      | succ c' =>
        show entry (addMat as bs) c' t = entry as c' t + entry bs c' t
        exact ih bs c' t (by simpa using hc1) (by simpa using hc2)
          (fun row hr => hta row (List.mem_cons_of_mem _ hr))
          (fun row hr => htb row (List.mem_cons_of_mem _ hr))

/-- Folding pointwise sums over a list of epochs keeps the shape and computes,
entrywise, the sum of all the epochs' entries. -/
lemma entry_foldl_addMat (l : List Epoch) :
    ∀ (init : List (List ℚ)) (nC nT : ℕ), Dims init nC nT →
      (∀ e ∈ l, Dims e.data nC nT) →
      Dims (l.foldl (fun acc e => addMat acc e.data) init) nC nT ∧
      ∀ c < nC, ∀ t < nT,
        entry (l.foldl (fun acc e => addMat acc e.data) init) c t =
          entry init c t + (l.map (fun e => entry e.data c t)).sum := by
  induction l with
  | nil => intro init nC nT hinit _; exact ⟨hinit, fun c _ t _ => by simp⟩
  | cons e rest ih =>
    intro init nC nT hinit hl
    have hed : Dims e.data nC nT := hl e (List.mem_cons_self _ _)
    have hrd : ∀ x ∈ rest, Dims x.data nC nT :=
      fun x hx => hl x (List.mem_cons_of_mem _ hx)
    have hstep : Dims (addMat init e.data) nC nT := addMat_dims hinit hed
    obtain ⟨hdims, hentry⟩ := ih (addMat init e.data) nC nT hstep hrd
    refine ⟨hdims, fun c hc t ht => ?_⟩
    rw [List.foldl_cons, hentry c hc t ht,
      entry_addMat init e.data c t (hinit.1 ▸ hc) (hed.1 ▸ hc)
        (fun row hr => (hinit.2 row hr) ▸ ht) (fun row hr => (hed.2 row hr) ▸ ht)]
    simp [add_assoc]

/-- Entry of a row scaled by a division. -/
lemma getD_map_div (row : List ℚ) (d : ℚ) :
    ∀ t : ℕ, (row.map (fun x => x / d)).getD t 0 = row.getD t 0 / d := by
  induction row with
  | nil => intro t; simp
  | cons x xs ih =>
    intro t
    cases t with
    | zero => simp
    | succ u => simp only [List.map_cons, List.getD_cons_succ]; exact ih u

/-- Entry of a matrix scaled by a division. -/
lemma entry_map_div (m : List (List ℚ)) (d : ℚ) :
    ∀ c t : ℕ, entry (m.map (fun row => row.map (fun x => x / d))) c t =
      entry m c t / d := by
  induction m with
  | nil => intro c t; simp [entry]
  | cons r rs ih =>
    intro c t
    cases c with
    | zero => show (r.map _).getD t 0 = r.getD t 0 / d; exact getD_map_div r d t
    | succ c' =>
      show entry (rs.map _) c' t = entry rs c' t / d
      exact ih c' t

/-- Scaling every entry by a division preserves the shape. -/
lemma dims_map_div {m : List (List ℚ)} {nC nT : ℕ} (hm : Dims m nC nT) (d : ℚ) :
    Dims (m.map (fun row => row.map (fun x => x / d))) nC nT := by
  constructor
  · simp [hm.1]
  · intro row hrow
    obtain ⟨r, hr, rfl⟩ := List.mem_map.mp hrow
    simp [hm.2 r hr]

/-- C3: the evoked average of the (non-empty, uniformly shaped)
`'auditory/left'` epoch group equals, at every channel and every sample
position, the arithmetic mean over all epochs tagged with that label of that
channel's sample at that position — one time series per channel. -/
theorem evoked_average_is_mean (eps : List Epoch) (nC nT : ℕ)
    (hne : epochGroup eps "auditory/left" ≠ [])
    (hdims : ∀ e ∈ epochGroup eps "auditory/left", Dims e.data nC nT) :
    ∃ M, average (epochGroup eps "auditory/left") = some M ∧ Dims M nC nT ∧
      ∀ c < nC, ∀ t < nT,
        entry M c t =
          ((epochGroup eps "auditory/left").map (fun e => entry e.data c t)).sum /
            ((epochGroup eps "auditory/left").length : ℚ) := by
  rcases hgl : epochGroup eps "auditory/left" with _ | ⟨e, rest⟩
  · exact absurd hgl hne
  · rw [hgl] at hdims
    have hed : Dims e.data nC nT := hdims e (List.mem_cons_self _ _)
    have hrd : ∀ x ∈ rest, Dims x.data nC nT :=
      fun x hx => hdims x (List.mem_cons_of_mem _ hx)
    obtain ⟨hfd, hfe⟩ := entry_foldl_addMat rest e.data nC nT hed hrd
    refine ⟨_, rfl, dims_map_div hfd _, ?_⟩
    intro c hc t ht
    rw [entry_map_div, hfe c hc t ht]
    simp only [List.map_cons, List.sum_cons, List.length_cons]

/-- A directly given one-epoch `auditory/left` group for instantiation. -/
def demoEpochs : List Epoch :=
  [{ label := "auditory/left", n := 8, data := [[-1, 0, 1, 2, 3, 4, 5, 6]] }]

/-- Witness for C3 at the one-epoch group. -/
theorem evoked_average_is_mean_witness :
    epochGroup demoEpochs "auditory/left" ≠ [] ∧
    (∀ e ∈ epochGroup demoEpochs "auditory/left", Dims e.data 1 8) ∧
    ∃ M, average (epochGroup demoEpochs "auditory/left") = some M ∧ Dims M 1 8 ∧
      ∀ c < 1, ∀ t < 8,
        entry M c t =
          ((epochGroup demoEpochs "auditory/left").map (fun e => entry e.data c t)).sum /
            ((epochGroup demoEpochs "auditory/left").length : ℚ) :=
  ⟨by decide, by decide, evoked_average_is_mean demoEpochs 1 8 (by decide) (by decide)⟩

/-- Adding two non-NaN samples gives a non-NaN sample. -/
lemma Val.add_ne_nan {x y : Val} (hx : x ≠ Val.nan) (hy : y ≠ Val.nan) :
    Val.add x y ≠ Val.nan := by
  cases x with
  | nan => exact absurd rfl hx
  | fin a =>
    cases y with
    | nan => exact absurd rfl hy
    | fin b => simp [Val.add]

/-- Dividing a non-NaN sample by a non-zero count gives a non-NaN sample. -/
lemma Val.divN_ne_nan {v : Val} (hv : v ≠ Val.nan) {k : ℕ} (hk : k ≠ 0) :
    v.divN k ≠ Val.nan := by
  cases v with
  | nan => exact absurd rfl hv
  | fin a => simp [Val.divN, hk]

/-- Pointwise sum of NaN-free matrices is NaN-free. -/
lemma noNaN_addMatV {a b : List (List Val)} (ha : NoNaN a) (hb : NoNaN b) :
    NoNaN (addMatV a b) := by
  intro row hrow
  obtain ⟨ra, hra, rb, hrb, rfl⟩ := mem_zipWith _ a b row hrow
  intro v hv
  obtain ⟨u, hu, w, hw, rfl⟩ := mem_zipWith _ ra rb v hv
  exact Val.add_ne_nan (ha ra hra u hu) (hb rb hrb w hw)

/-- Pointwise sum of NaN-aware matrices preserves the shape. -/
lemma addMatV_dims {a b : List (List Val)} {nC nT : ℕ}
    (ha : DimsV a nC nT) (hb : DimsV b nC nT) : DimsV (addMatV a b) nC nT := by
  constructor
  · rw [addMatV, List.length_zipWith, ha.1, hb.1, Nat.min_self]
  · intro row hrow
    obtain ⟨ra, hra, rb, hrb, rfl⟩ := mem_zipWith _ a b row hrow
    rw [List.length_zipWith, ha.2 ra hra, hb.2 rb hrb, Nat.min_self]

/-- Summing a list of NaN-free matrices onto a NaN-free accumulator stays
NaN-free. -/
lemma noNaN_foldl (l : List (List (List Val))) :
    ∀ init, NoNaN init → (∀ m ∈ l, NoNaN m) → NoNaN (l.foldl addMatV init) := by
  induction l with
  | nil => intro init hinit _; exact hinit
  | cons m rest ih =>
    intro init hinit hl
    exact ih (addMatV init m)
      (noNaN_addMatV hinit (hl m (List.mem_cons_self _ _)))
      (fun x hx => hl x (List.mem_cons_of_mem _ hx))

/-- Summing a list of uniformly shaped matrices keeps the shape. -/
lemma dimsV_foldl (l : List (List (List Val))) {nC nT : ℕ} :
    ∀ init, DimsV init nC nT → (∀ m ∈ l, DimsV m nC nT) →
      DimsV (l.foldl addMatV init) nC nT := by
  induction l with
  | nil => intro init hinit _; exact hinit
  | cons m rest ih =>
    intro init hinit hl
    exact ih (addMatV init m)
      (addMatV_dims hinit (hl m (List.mem_cons_self _ _)))
      (fun x hx => hl x (List.mem_cons_of_mem _ hx))

/-- C4: provided the `'auditory/left'` epoch group is non-empty (and its
sample matrices, read from the recording, are NaN-free and uniformly shaped),
averaging it produces one waveform per channel in which no sample is NaN. -/
theorem average_auditory_left_no_nan (eps : List (String × List (List Val))) (nC nT : ℕ)
    (hne : vGroup eps "auditory/left" ≠ [])
    (hfin : ∀ m ∈ vGroup eps "auditory/left", NoNaN m)
    (hdims : ∀ m ∈ vGroup eps "auditory/left", DimsV m nC nT) :
    DimsV (averageV (vGroup eps "auditory/left")) nC nT ∧
    NoNaN (averageV (vGroup eps "auditory/left")) := by
  rcases hgl : vGroup eps "auditory/left" with _ | ⟨m, rest⟩
  · exact absurd hgl hne
  · rw [hgl] at hfin hdims
    have hmf : NoNaN m := hfin m (List.mem_cons_self _ _)
    have hmd : DimsV m nC nT := hdims m (List.mem_cons_self _ _)
    have hrf : ∀ x ∈ rest, NoNaN x := fun x hx => hfin x (List.mem_cons_of_mem _ hx)
    have hrdv : ∀ x ∈ rest, DimsV x nC nT := fun x hx => hdims x (List.mem_cons_of_mem _ hx)
    have hsumf : NoNaN (rest.foldl addMatV m) := noNaN_foldl rest m hmf hrf
    have hsumd : DimsV (rest.foldl addMatV m) nC nT := dimsV_foldl rest m hmd hrdv
    constructor
    · constructor
      · simp [averageV, hsumd.1]
      · intro row hrow
        simp only [averageV] at hrow
        obtain ⟨r, hr, rfl⟩ := List.mem_map.mp hrow
        simp [hsumd.2 r hr]
    · intro row hrow
      simp only [averageV] at hrow
      obtain ⟨r, hr, rfl⟩ := List.mem_map.mp hrow
      intro v hv
      obtain ⟨w, hw, rfl⟩ := List.mem_map.mp hv
      exact Val.divN_ne_nan (hsumf r hr w hw) (Nat.succ_ne_zero _)

/-- Witness for C4 at a two-epoch NaN-free group. -/
theorem average_auditory_left_no_nan_witness :
    vGroup [("auditory/left", [[Val.fin 1, Val.fin 2]]),
            ("auditory/left", [[Val.fin 3, Val.fin 5]])] "auditory/left" ≠ [] ∧
    (∀ m ∈ vGroup [("auditory/left", [[Val.fin 1, Val.fin 2]]),
                   ("auditory/left", [[Val.fin 3, Val.fin 5]])] "auditory/left", NoNaN m) ∧
    (DimsV (averageV (vGroup [("auditory/left", [[Val.fin 1, Val.fin 2]]),
              ("auditory/left", [[Val.fin 3, Val.fin 5]])] "auditory/left")) 1 2 ∧
      NoNaN (averageV (vGroup [("auditory/left", [[Val.fin 1, Val.fin 2]]),
              ("auditory/left", [[Val.fin 3, Val.fin 5]])] "auditory/left"))) :=
  ⟨by decide, by decide,
    average_auditory_left_no_nan _ 1 2 (by decide) (by decide) (by decide)⟩

/-- C5: the script's re-referencing step applies the fixed `'average'`
reference with `projection=True`: it attaches the deferred average-reference
projection and leaves the sample matrix (and everything else in the
recording) untouched, whereas the `projection=False` branch it does not take
would subtract the channel mean immediately. -/
theorem rereference_is_deferred (s : SState) :
    (rerefStep s).raw.data = s.raw.data ∧
    (rerefStep s).raw.stim = s.raw.stim ∧
    (rerefStep s).raw.sfreq = s.raw.sfreq ∧
    (rerefStep s).raw.projs = s.raw.projs ++ [Proj.averageRef] ∧
    ∀ r : Recording, (set_eeg_reference "average" false r).data = subtractCommonAverage r.data :=
  ⟨rfl, rfl, rfl, rfl, fun _ => rfl⟩

/-- The executed trace is always a prefix-like sub-sequence of the script's
statement list. -/
lemma runCalls_trace_sublist :
    ∀ l : List (Call × Option String), (runCalls l).1.Sublist (l.map Prod.fst) := by
  intro l
  induction l with
  | nil => simp [runCalls]
  | cons p rest ih =>
    rcases p with ⟨c, e⟩
    cases e with
    | none => simpa [runCalls] using ih.cons₂ c
    | some err =>
      exact (List.nil_sublist (rest.map Prod.fst)).cons₂ c

/-- When every statement succeeds, the whole statement list executes in
order and the run succeeds. -/
lemma runCalls_allOk :
    ∀ l : List (Call × Option String), (∀ p ∈ l, p.2 = none) →
      runCalls l = (l.map Prod.fst, Except.ok ()) := by
  intro l
  induction l with
  | nil => intro _; rfl
  | cons p rest ih =>
    intro h
    rcases p with ⟨c, e⟩
    have he : e = none := h (c, e) (List.mem_cons_self _ _)
    subst he
    simp only [runCalls, List.map_cons]
    rw [ih (fun q hq => h q (List.mem_cons_of_mem _ hq))]

/-- A sub-sequence of a one-element list is empty or that list. -/
lemma sublist_of_singleton {α : Type} {l : List α} {a : α} (h : l.Sublist [a]) :
    l = [] ∨ l = [a] := by
  rcases List.sublist_cons_iff.mp h with h1 | ⟨r, rfl, hr⟩
  · exact Or.inl (List.sublist_nil.mp h1)
  · exact Or.inr (by rw [List.sublist_nil.mp hr])

/-- Among the script's nine statements there is exactly one filtering call,
with the fixed arguments `(1, 40, 'firwin')`. -/
lemma scriptSteps_filter_calls (dp : String) (w : World) :
    ((scriptSteps dp w).map Prod.fst).filter isFilterCall = [Call.filterCall 1 40 "firwin"] := rfl

/-- C6: the filtering the script applies is exactly the band-pass with fixed
passband 1–40 Hz and fixed design `'firwin'`: in a successful run that call
occurs exactly once, and in any run whatever filtering occurs is that one
call — no other filter is ever applied. -/
theorem filter_fixed_band (dp : String) (w : World) (h : w.allOk) :
    (runScript dp w).1.filter isFilterCall = [Call.filterCall 1 40 "firwin"] ∧
    ∀ w2 : World, (runScript dp w2).1.filter isFilterCall = [] ∨
      (runScript dp w2).1.filter isFilterCall = [Call.filterCall 1 40 "firwin"] := by
  constructor
  · obtain ⟨h1, h2, h3, h4, h5, h6, h7⟩ := h
    have hall : ∀ p ∈ scriptSteps dp w, p.2 = none := by
      simp [scriptSteps, h1, h2, h3, h4, h5, h6, h7]
    rw [runScript, runCalls_allOk _ hall]
    exact scriptSteps_filter_calls dp w
  · intro w2
    have hsub := (runCalls_trace_sublist (scriptSteps dp w2)).filter isFilterCall
    rw [scriptSteps_filter_calls dp w2] at hsub
    exact sublist_of_singleton hsub

/-- The all-successful world. -/
def okWorld : World :=
  { loadR := none, filterR := none, rerefR := none, findR := none,
    epochR := none, avgR := none, plotR := none }

/-- Witness for C6 in the all-successful world. -/
theorem filter_fixed_band_witness :
    okWorld.allOk ∧
    ((runScript "dp" okWorld).1.filter isFilterCall = [Call.filterCall 1 40 "firwin"] ∧
      ∀ w2 : World, (runScript "dp" w2).1.filter isFilterCall = [] ∨
        (runScript "dp" w2).1.filter isFilterCall = [Call.filterCall 1 40 "firwin"]) :=
  ⟨by decide, filter_fixed_band "dp" okWorld (by decide)⟩

/-- C7: when every library call succeeds, the script's entire behaviour is
the fixed sequence load → filter → re-reference → event extraction → epoch
construction → averaging → plotting, bracketed by the two `print`s, ending
with the success message; and along the state-machine run the one in-memory
recording is mutated in place by exactly the filter and then the
re-reference, the console showing the loading and success messages. -/
theorem script_is_fixed_sequence (dp : String) (w : World) (h : w.allOk) :
    runScript dp w =
      ([Call.printMsg "Loading sample EEG dataset...",
        Call.load (dp ++ "/MEG/sample/sample_audvis_raw.fif"),
        Call.filterCall 1 40 "firwin",
        Call.setRef "average" true,
        Call.findEv "STI 014",
        Call.epochsCall tmin tmax,
        Call.avg "auditory/left",
        Call.plot,
        Call.printMsg "EEG preprocessing demo finished successfully!"], Except.ok ()) ∧
    ∀ d : Recording,
      (machineRun d).raw = set_eeg_reference "average" true (filterF d) ∧
      (machineRun d).printed =
        ["Loading sample EEG dataset...", "EEG preprocessing demo finished successfully!"] ∧
      (machineRun d).plotted = true := by
  constructor
  · obtain ⟨h1, h2, h3, h4, h5, h6, h7⟩ := h
    have hall : ∀ p ∈ scriptSteps dp w, p.2 = none := by
      simp [scriptSteps, h1, h2, h3, h4, h5, h6, h7]
    rw [runScript, runCalls_allOk _ hall]
    rfl
  · intro d
    exact ⟨rfl, rfl, rfl⟩

/-- Witness for C7 in the all-successful world. -/
theorem script_is_fixed_sequence_witness :
    okWorld.allOk ∧
    (runScript "dp" okWorld =
      ([Call.printMsg "Loading sample EEG dataset...",
        Call.load ("dp" ++ "/MEG/sample/sample_audvis_raw.fif"),
        Call.filterCall 1 40 "firwin",
        Call.setRef "average" true,
        Call.findEv "STI 014",
        Call.epochsCall tmin tmax,
        Call.avg "auditory/left",
        Call.plot,
        Call.printMsg "EEG preprocessing demo finished successfully!"], Except.ok ()) ∧
      ∀ d : Recording,
        (machineRun d).raw = set_eeg_reference "average" true (filterF d) ∧
        (machineRun d).printed =
          ["Loading sample EEG dataset...", "EEG preprocessing demo finished successfully!"] ∧
        (machineRun d).plotted = true) :=
  ⟨by decide, script_is_fixed_sequence "dp" okWorld (by decide)⟩

/-- Straight-line execution stops at the first failing statement and returns
its error. -/
lemma runCalls_first_error :
    ∀ (pre : List (Call × Option String)) (c : Call) (e : String)
      (post : List (Call × Option String)),
      (∀ p ∈ pre, p.2 = none) →
      runCalls (pre ++ (c, some e) :: post) = (pre.map Prod.fst ++ [c], Except.error e) := by
  intro pre
  induction pre with
  | nil => intro c e post _; rfl
  | cons p rest ih =>
    intro c e post hpre
    rcases p with ⟨c0, e0⟩
    have he : e0 = none := hpre (c0, e0) (List.mem_cons_self _ _)
    subst he
    simp only [List.cons_append, runCalls, List.map_cons, List.append_eq]
    rw [ih c e post (fun q hq => hpre q (List.mem_cons_of_mem _ hq))]

/-- C8: whichever statement the external library fails on, the script has no
handling of its own: every statement before it ran once, the failing call's
error is the run's outcome (the uncaught exception terminates the process),
and nothing after the failing statement executes — there is no retry and no
fallback branch. -/
theorem abnormal_condition_propagates (dp : String) (w : World)
    (pre : List (Call × Option String)) (c : Call) (e : String)
    (post : List (Call × Option String))
    (hsplit : scriptSteps dp w = pre ++ (c, some e) :: post)
    (hpre : ∀ p ∈ pre, p.2 = none) :
    runScript dp w = (pre.map Prod.fst ++ [c], Except.error e) := by
  rw [runScript, hsplit]
  exact runCalls_first_error pre c e post hpre

/-- A world in which epoch construction raises (as with absent events). -/
def failWorld : World :=
  { loadR := none, filterR := none, rerefR := none, findR := none,
    epochR := some "no matching events found", avgR := none, plotR := none }

/-- Witness for C8: epoch construction fails, the run stops there with that
error. -/
theorem abnormal_condition_propagates_witness :
    scriptSteps "dp" failWorld =
      [(Call.printMsg "Loading sample EEG dataset...", none),
       (Call.load ("dp" ++ "/MEG/sample/sample_audvis_raw.fif"), none),
       (Call.filterCall 1 40 "firwin", none),
       (Call.setRef "average" true, none),
       (Call.findEv "STI 014", none)] ++
        (Call.epochsCall tmin tmax, some "no matching events found") ::
          [(Call.avg "auditory/left", none), (Call.plot, none),
           (Call.printMsg "EEG preprocessing demo finished successfully!", none)] ∧
    (∀ p ∈ [(Call.printMsg "Loading sample EEG dataset...", (none : Option String)),
       (Call.load ("dp" ++ "/MEG/sample/sample_audvis_raw.fif"), none),
       (Call.filterCall 1 40 "firwin", none),
       (Call.setRef "average" true, none),
       (Call.findEv "STI 014", none)], p.2 = none) ∧
    runScript "dp" failWorld =
      ([(Call.printMsg "Loading sample EEG dataset...", (none : Option String)),
        (Call.load ("dp" ++ "/MEG/sample/sample_audvis_raw.fif"), none),
        (Call.filterCall 1 40 "firwin", none),
        (Call.setRef "average" true, none),
        (Call.findEv "STI 014", none)].map Prod.fst ++ [Call.epochsCall tmin tmax],
       Except.error "no matching events found") :=
  ⟨rfl, by decide,
    abnormal_condition_propagates "dp" failWorld _ _ _ _ rfl (by decide)⟩

/-- C9: the event table is read-only after its creation: each statement
executed after event extraction — epoch construction, averaging (with its
label selection), plotting, the final print — leaves the `events` sequence
unchanged, and so does their composition. -/
theorem event_table_read_only :
    (∀ s : SState, (epochStep s).events = s.events) ∧
    (∀ s : SState, (averageStep s).events = s.events) ∧
    (∀ s : SState, (plotStep s).events = s.events) ∧
    (∀ (msg : String) (s : SState), (printStep msg s).events = s.events) ∧
    ∀ s : SState, (postEventSteps.foldl (fun st f => f st) s).events = s.events :=
  ⟨fun _ => rfl, fun _ => rfl, fun _ => rfl, fun _ _ => rfl, fun _ => rfl⟩

/-- The script's step relation is a function: from any configuration, at
most one step is possible and its result is determined. -/
lemma sstep_det {d : Recording} {c c₁ c₂ : Phase × SState}
    (h1 : SStep d c c₁) (h2 : SStep d c c₂) : c₁ = c₂ := by
  cases h1 <;> cases h2 <;> rfl

/-- No step leaves the final configuration. -/
lemma sstep_not_finished {d : Recording} {s : SState} {c' : Phase × SState}
    (h : SStep d (Phase.finished, s) c') : False := by
  cases h

/-- Two complete runs (reaching the final phase) from the same configuration
end in the same configuration. -/
lemma runs_to_final_det {d : Recording} :
    ∀ {c c₁ : Phase × SState}, Relation.ReflTransGen (SStep d) c c₁ →
      c₁.1 = Phase.finished →
      ∀ {c₂ : Phase × SState}, Relation.ReflTransGen (SStep d) c c₂ →
        c₂.1 = Phase.finished → c₁ = c₂ := by
  intro c c₁ h₁
  induction h₁ using Relation.ReflTransGen.head_induction_on with
  | refl =>
    intro hf c₂ h₂ hf₂
    rcases h₂.cases_head with rfl | ⟨b, hstep, _⟩
    · rfl
    · obtain ⟨ph, st⟩ := c₁
      obtain rfl : ph = Phase.finished := hf
      exact absurd hstep sstep_not_finished
  | @head a b hstep htail ih =>
    intro hf c₂ h₂ hf₂
    rcases h₂.cases_head with rfl | ⟨b', hstep₂, htail₂⟩
    · obtain ⟨ph, st⟩ := a
      obtain rfl : ph = Phase.finished := hf₂
      exact absurd hstep sstep_not_finished
    · obtain rfl : b' = b := sstep_det hstep₂ hstep
      exact ih hf htail₂ hf₂

/-- C10: the pipeline is deterministic: beyond the dataset `d` the step
relation takes no configuration, randomness, or environment input, so any
two complete runs of the script over the same dataset produce the same event
table, the same epoch collection, the same evoked average, and the same
console output. -/
theorem pipeline_deterministic (d : Recording) (c₁ c₂ : Phase × SState)
    (h₁ : Relation.ReflTransGen (SStep d) (Phase.atStart, initState) c₁)
    (f₁ : c₁.1 = Phase.finished)
    (h₂ : Relation.ReflTransGen (SStep d) (Phase.atStart, initState) c₂)
    (f₂ : c₂.1 = Phase.finished) :
    c₁.2.events = c₂.2.events ∧ c₁.2.epochs = c₂.2.epochs ∧
    c₁.2.evoked = c₂.2.evoked ∧ c₁.2.printed = c₂.2.printed := by
  have h := runs_to_final_det h₁ f₁ h₂ f₂
  rw [h]
  exact ⟨rfl, rfl, rfl, rfl⟩

/-- A complete run of the script on the synthetic recording. -/
lemma demo_complete_run :
    Relation.ReflTransGen (SStep demoRec) (Phase.atStart, initState)
      (Phase.finished, machineRun demoRec) :=
  Relation.ReflTransGen.head (SStep.banner _)
    (Relation.ReflTransGen.head (SStep.load _)
      (Relation.ReflTransGen.head (SStep.filt _)
        (Relation.ReflTransGen.head (SStep.reref _)
          (Relation.ReflTransGen.head (SStep.findEv _)
            (Relation.ReflTransGen.head (SStep.epoch _)
              (Relation.ReflTransGen.head (SStep.avg _)
                (Relation.ReflTransGen.head (SStep.plotC _)
                  (Relation.ReflTransGen.head (SStep.finish _)
                    Relation.ReflTransGen.refl))))))))

/-- Witness for C10 at the synthetic recording's complete run. -/
theorem pipeline_deterministic_witness :
    (Phase.finished, machineRun demoRec).2.events =
        (Phase.finished, machineRun demoRec).2.events ∧
    (Phase.finished, machineRun demoRec).2.epochs =
        (Phase.finished, machineRun demoRec).2.epochs ∧
    (Phase.finished, machineRun demoRec).2.evoked =
        (Phase.finished, machineRun demoRec).2.evoked ∧
    (Phase.finished, machineRun demoRec).2.printed =
        (Phase.finished, machineRun demoRec).2.printed :=
  pipeline_deterministic demoRec _ _ demo_complete_run rfl demo_complete_run rfl

end EEGPipeline
